import Mathlib

/-!
Verification development for the `savage` row-versioning library.

The Lean definitions below are a shallow embedding of the Python source:

* `savage/api/data.py` — the temporal query engine (`get`, `delete` and their
  helpers `_get_conditions_list`, `_get_conditions`, `_get_historical_changes`,
  `_get_historical_time_slice`, `_get_latest_time_slice`, `_get_limit_and_offset`,
  `_get_order_clause`, `_format_response`);
* `savage/__init__.py` — the flush-time change interceptor
  (`_before_flush_handler`, `_after_flush_handler`, `_versioned_insert`,
  `_versioned_update`, `_versioned_delete`, `_archive_row`);
* `savage/models/__init__.py` — `SavageLogMixin.build_row_dict`,
  `SavageLogMixin._validate`, `SavageModelMixin._validate`,
  `SavageModelMixin.register`;
* `savage/utils.py` — `is_modified`, `get_column_attribute`, `has_constraint`.

Column values and timestamps are modelled as `Int` (the engine's timestamps
are totally ordered; only their order matters to the queries).  Rows and
`data` documents are association lists keyed by column name, mirroring the
Python dictionaries.  SQL result sets are lists of such rows; the SQL
`SELECT ... WHERE ... ORDER BY ... LIMIT ... OFFSET` pipeline is modelled as
filter, then a total-order merge sort on the ORDER BY key, then drop/take.
-/

namespace Savage

/-- A row of the archive (log) table, as selected by the query engine:
the identity ("version") column values duplicated as top-level columns,
the `version_id`, the `updated_at` timestamp, the `deleted` flag and the
`data` JSON snapshot. -/
structure ArchiveEntry where
  identity : List (String × Int)
  version_id : Int
  updated_at : Int
  deleted : Bool
  data : List (String × Int)
  deriving Repr, DecidableEq

/-- A row of the live (user) table: identity column values plus the row's
current `version_id`.  Only these columns take part in the queries. -/
structure LiveRow where
  identity : List (String × Int)
  version_id : Int
  deriving Repr, DecidableEq

/-- A registered table as seen by the query engine: the identity-column
names (`table.version_columns`), the user-table column names (used for the
default field projection), the archive log and the live rows. -/
structure QueryTable where
  version_columns : List String
  user_columns : List String
  archive : List ArchiveEntry
  live : List LiveRow
  deriving Repr, DecidableEq

/-- Value of column `c` on an archive row (`getattr(at, c)`). -/
def colVal (e : ArchiveEntry) (c : String) : Int :=
  (e.identity.lookup c).getD 0

/-- Value of column `c` on a live row (`getattr(table, c)`). -/
def liveColVal (l : LiveRow) (c : String) : Int :=
  (l.identity.lookup c).getD 0

/-- One identity condition: a dictionary of column name / value pairs
(an element of the `conds` argument). -/
abbrev Cond := List (String × Int)

/-- The validation performed per condition by `_get_conditions_list`:
`len(cond) == len(table.version_columns)` and every key of the condition
is one of the version columns; a violation raises `ValueError`. -/
def validCond (versionCols : List String) (cond : Cond) : Bool :=
  cond.length == versionCols.length &&
    cond.all (fun p => versionCols.contains p.1)

/-- `_get_conditions_list`: validates every condition (raising on the first
bad one) and translates each into a conjunction of column equalities.
`conds is None` is normalised to `[]` by the caller of this model. -/
def get_conditions_list (versionCols : List String) (conds : List Cond) :
    Except String (List Cond) :=
  if conds.all (validCond versionCols) then .ok conds
  else .error "Conditions must specify all unique constraints."

/-- Does archive row `e` satisfy the disjunction of conjunctions built by
`_get_conditions` from the condition list?  With no conditions,
`sa.or_()` is an empty clause list, which SQLAlchemy drops from the
enclosing `and_`, i.e. it is neutral (true). -/
def condsHold (conds : List Cond) (e : ArchiveEntry) : Bool :=
  conds.isEmpty || conds.any (fun c => c.all (fun p => colVal e p.1 == p.2))

/-- Same disjunction evaluated against a live row (the `archive=False`
variant of `_get_conditions_list`). -/
def condsHoldLive (conds : List Cond) (l : LiveRow) : Bool :=
  conds.isEmpty || conds.any (fun c => c.all (fun p => liveColVal l p.1 == p.2))

/-- Lexicographic comparison of two equal-shaped sort keys. -/
def lexLe : List Int → List Int → Bool
  | [], _ => true
  | _ :: _, [] => false
  | a :: as, b :: bs =>
      if a < b then true else if b < a then false else lexLe as bs

/-- The ORDER BY key of `_get_order_clause`: each identity column
ascending, then `version_id` ascending. -/
def orderKey (vc : List String) (e : ArchiveEntry) : List Int :=
  vc.map (fun c => colVal e c) ++ [e.version_id]

/-- `ORDER BY identity columns ASC, version_id ASC` as a Bool relation. -/
def entryLe (vc : List String) (a b : ArchiveEntry) : Bool :=
  lexLe (orderKey vc a) (orderKey vc b)

/-- Ordered insertion with respect to a Bool relation. -/
def insertLe {α : Type} (le : α → α → Bool) (a : α) : List α → List α
  | [] => [a]
  | b :: bs => if le a b then a :: b :: bs else b :: insertLe le a bs

/-- Insertion sort with respect to a Bool relation (the model of the SQL
ORDER BY: any sort producing a result ordered by the key). -/
def sortLe {α : Type} (le : α → α → Bool) : List α → List α
  | [] => []
  | a :: as => insertLe le a (sortLe le as)

/-- Sort a result set by `_get_order_clause`. -/
def sortRows (vc : List String) (rows : List ArchiveEntry) : List ArchiveEntry :=
  sortLe (entryLe vc) rows

/-- `LIMIT limit OFFSET offset` applied to an ordered result set. -/
def paginate (limit offset : Nat) (rows : List ArchiveEntry) : List ArchiveEntry :=
  (rows.drop offset).take limit

/-- `_get_limit_and_offset`: raises for `page < 1`, else returns
`(page_size, (page - 1) * page_size)`. -/
def get_limit_and_offset (page : Int) (page_size : Nat) :
    Except String (Nat × Nat) :=
  if page < 1 then .error "page must be >= 1"
  else .ok (page_size, ((page - 1) * page_size).toNat)

/-- Filter of `_get_historical_changes`.  The Python actual argument is
`[updated_at >= t1, updated_at < t2] + [] if include_deleted else [deleted.is_(False)]`,
which by operator precedence is
`([updated_at >= t1, updated_at < t2] + []) if include_deleted else [deleted.is_(False)]`:
when `include_deleted` is false the two time-range conditions are absent
from the query and only the deletion filter remains. -/
def historicalChangesFilter (conds : List Cond) (t1 t2 : Int)
    (include_deleted : Bool) (e : ArchiveEntry) : Bool :=
  condsHold conds e &&
    (if include_deleted then t1 ≤ e.updated_at && e.updated_at < t2
     else e.deleted == false)

/-- `_get_historical_changes` (range mode): filter, order, paginate. -/
def get_historical_changes (tbl : QueryTable) (conds : List Cond) (t1 t2 : Int)
    (include_deleted : Bool) (limit offset : Nat) : List ArchiveEntry :=
  paginate limit offset
    (sortRows tbl.version_columns
      (tbl.archive.filter (historicalChangesFilter conds t1 t2 include_deleted)))

/-- The LEFT OUTER self-join condition of `_get_historical_time_slice`:
is there another entry of the same identity with `updated_at <= t` and a
strictly greater `version_id`?  (The join ranges over the whole archive
table, unrestricted by conditions or the deletion filter.) -/
def hasLaterEntry (log : List ArchiveEntry) (vc : List String) (t : Int)
    (e : ArchiveEntry) : Bool :=
  log.any (fun e2 =>
    e2.updated_at ≤ t && e.version_id < e2.version_id &&
      vc.all (fun c => colVal e c == colVal e2 c))

/-- WHERE clause of `_get_historical_time_slice`.  The same Python
precedence slip as in `historicalChangesFilter` applies: the actual
argument is `[updated_at <= t] + [] if include_deleted else [deleted.is_(False)]`,
so when `include_deleted` is false the `updated_at <= t` condition is
absent and only the deletion filter remains next to the anti-join test. -/
def timeSliceFilter (log : List ArchiveEntry) (vc : List String)
    (conds : List Cond) (t : Int) (include_deleted : Bool)
    (e : ArchiveEntry) : Bool :=
  !(hasLaterEntry log vc t e) &&
    (condsHold conds e &&
      (if include_deleted then e.updated_at ≤ t else e.deleted == false))

/-- `_get_historical_time_slice` (point-in-time mode). -/
def get_historical_time_slice (tbl : QueryTable) (conds : List Cond) (t : Int)
    (include_deleted : Bool) (limit offset : Nat) : List ArchiveEntry :=
  paginate limit offset
    (sortRows tbl.version_columns
      (tbl.archive.filter
        (timeSliceFilter tbl.archive tbl.version_columns conds t include_deleted)))

/-- The inner-join condition of `_get_latest_time_slice`: a live row with
equal `version_id` and equal identity-column values.  Because the join
equates the identity columns, evaluating the identity conditions against
the archive row is the same as evaluating them against the joined live
row. -/
def joinsLive (live : List LiveRow) (vc : List String) (e : ArchiveEntry) : Bool :=
  live.any (fun l =>
    e.version_id == l.version_id &&
      vc.all (fun c => colVal e c == liveColVal l c))

/-- `_get_latest_time_slice` (latest mode).  Here the deletion-filter list
is built without the stray `+ []`, so no precedence slip occurs. -/
def get_latest_time_slice (tbl : QueryTable) (conds : List Cond)
    (include_deleted : Bool) (limit offset : Nat) : List ArchiveEntry :=
  paginate limit offset
    (sortRows tbl.version_columns
      (tbl.archive.filter (fun e =>
        joinsLive tbl.live tbl.version_columns e &&
          (condsHold conds e && (include_deleted || e.deleted == false)))))

/-- Cursor mode: the query issued inline in `get` when `version_id` is
given.  Note that the identity conditions do not appear in this query at
all. -/
def get_after_version (tbl : QueryTable) (cursor : Int) : List ArchiveEntry :=
  sortRows tbl.version_columns
    (tbl.archive.filter (fun e => cursor < e.version_id))

/-- An output record of `_format_response`: `formatted` is the archive row
with its `data` replaced by the projection onto the requested fields
(`dict.get` returns `None` for a missing key, hence `Option Int`). -/
structure OutRec where
  entry : ArchiveEntry
  out_data : List (String × Option Int)
  deriving Repr, DecidableEq

/-- `{k: row[k] for k in unique_col_names}` — the identity dictionary used
for the per-identity grouping in `_format_response`. -/
def entryIdOf (vc : List String) (e : ArchiveEntry) : List (String × Int) :=
  vc.map (fun c => (c, colVal e c))

/-- `{k: data.get(k) for k in fields}` — the snapshot restricted to the
requested field list. -/
def prunedData (fields : List String) (e : ArchiveEntry) : List (String × Option Int) :=
  fields.map (fun k => (k, e.data.lookup k))

/-- Loop of `_format_response`.  `acc` is the output list in reverse
(so that `acc.head?` is Python's `output[-1]`); `oldId` is `old_id`.
When the identity differs from `old_id` the row is emitted
unconditionally; otherwise it is emitted only if the projected data or the
deleted flag differs from the last emitted record.  The `acc = []` branch
under an equal identity is unreachable (the first row always emits since
`old_id` starts as `None`), and is mapped to an emit. -/
def format_response_aux (vc fields : List String) :
    List ArchiveEntry → Option (List (String × Int)) → List OutRec → List OutRec
  | [], _, acc => acc.reverse
  | r :: rs, oldId, acc =>
      let id_ := entryIdOf vc r
      let pruned := prunedData fields r
      if some id_ ≠ oldId then
        format_response_aux vc fields rs (some id_) (⟨r, pruned⟩ :: acc)
      else
        match acc with
        | last :: _ =>
            if pruned = last.out_data ∧ r.deleted = last.entry.deleted then
              format_response_aux vc fields rs (some id_) acc
            else
              format_response_aux vc fields rs (some id_) (⟨r, pruned⟩ :: acc)
        | [] => format_response_aux vc fields rs (some id_) [⟨r, pruned⟩]

/-- `_format_response`: projection of `data` onto `fields` plus dedup of
consecutive rows of the same identity whose projected snapshot and deleted
flag are unchanged since the last emitted record. -/
def format_response (vc fields : List String) (rows : List ArchiveEntry) : List OutRec :=
  format_response_aux vc fields rows none []

/-- `get`: mode dispatch, condition validation and pagination, following
`savage.api.data.get` line by line.  `t1 = None` in range mode defaults to
the unix epoch (modelled as time `0`).  In cursor mode the conditions are
neither validated nor applied, and the limit is `page_size` (equal to
`limit`). -/
def get (tbl : QueryTable) (version_id : Option Int) (t1 t2 : Option Int)
    (fields : Option (List String)) (conds : List Cond)
    (include_deleted : Bool) (page : Int) (page_size : Nat) :
    Except String (List OutRec) :=
  match get_limit_and_offset page page_size with
  | .error e => .error e
  | .ok (limit, offset) =>
    let vc := tbl.version_columns
    let flds := fields.getD (tbl.user_columns.filter (fun n => n ≠ "version_id"))
    match version_id with
    | some cursor =>
        .ok (format_response vc flds
          (paginate page_size offset (get_after_version tbl cursor)))
    | none =>
      match t1, t2 with
      | none, none =>
          match get_conditions_list vc conds with
          | .error e => .error e
          | .ok _ =>
              .ok (format_response vc flds
                (get_latest_time_slice tbl conds include_deleted limit offset))
      | some t, none =>
          match get_conditions_list vc conds with
          | .error e => .error e
          | .ok _ =>
              .ok (format_response vc flds
                (get_historical_time_slice tbl conds t include_deleted limit offset))
      | _, some u =>
          match get_conditions_list vc conds with
          | .error e => .error e
          | .ok _ =>
              .ok (format_response vc flds
                (get_historical_changes tbl conds (t1.getD 0) u include_deleted limit offset))

/-- `delete` (hard delete): validates the conditions once per table
(`_get_conditions_list` is called for the archive and the live variant
with the same outcome), then removes the matching rows from the archive
table and from the live table.  With no conditions `_get_conditions`
returns the empty conjunction `sa.and_()`, i.e. true, so every row
matches. -/
def delete_op (tbl : QueryTable) (conds : Option (List Cond)) :
    Except String QueryTable :=
  match get_conditions_list tbl.version_columns (conds.getD []) with
  | .error e => .error e
  | .ok cl =>
      .ok { tbl with
            archive := tbl.archive.filter (fun e => !(condsHold cl e)),
            live := tbl.live.filter (fun l => !(condsHoldLive cl l)) }

/-! ## Change interceptor (`savage/__init__.py` flush handlers)

Model of one committed transaction performing one mutation on one
registered table.  `txid_current()` is a server-side counter, strictly
monotonically increasing across transactions and constant within one
transaction; a run therefore pairs every operation with its transaction
id and assumes the ids strictly increase.  A record's column values are
an association list over the business columns (`version_id` is kept
separately, as the live row's version); the dialect's per-column bind
processor is a function `proc`.  Following SQLAlchemy's value-level
history for committed flushes, a column "has changes" iff its new value
differs from its last committed value. -/

/-- Column values of a record, keyed by column name. -/
abbrev Cols := List (String × Int)

/-- `getattr(row, c)` for a column-value mapping. -/
def colOf (cols : Cols) (c : String) : Int :=
  (cols.lookup c).getD 0

/-- A row built for insertion into the archive table by
`SavageLogMixin.build_row_dict` (minus `updated_at`, the wall-clock
serialization time, which none of the interceptor claims mention). -/
structure LogEntry where
  identity : List (String × Int)
  version_id : Int
  deleted : Bool
  data : List (String × Int)
  deriving Repr, DecidableEq

/-- `build_row_dict` applied to the chosen (current or pre-change) column
values: `data` holds every business column processed through the dialect,
the identity columns are copied top-level unprocessed
(`get_column_attribute` is called without a dialect there), and the
version is `txid_current()` for deleted entries or the row's `version_id`
otherwise — the caller passes the resulting value as `ver`. -/
def build_row_entry (proc : String → Int → Int) (vc allCols : List String)
    (cols : Cols) (ver : Int) (deleted : Bool) : LogEntry :=
  { identity := vc.map (fun c => (c, colOf cols c)),
    version_id := ver,
    deleted := deleted,
    data := allCols.map (fun c => (c, proc c (colOf cols c))) }

/-- `savage.utils.is_modified`: over the columns whose raw value was
assigned a different value, compare the dialect-processed current value
with the processed last committed value; true iff some column really
changed after canonicalization. -/
def is_modified (proc : String → Int → Int) (allCols : List String)
    (old new : Cols) : Bool :=
  allCols.any (fun c =>
    (colOf new c != colOf old c) &&
      (proc c (colOf new c) != proc c (colOf old c)))

/-- `_versioned_update`'s composite-key check: some identity column's
attribute history has changes. -/
def compositeKeyChanged (vc : List String) (old new : Cols) : Bool :=
  vc.any (fun c => colOf new c != colOf old c)

/-- Database state seen by the interceptor: the live rows (column values
plus stored `version_id`) and the append-only archive log. -/
structure IState where
  live : List (Cols × Int)
  archive : List LogEntry
  deriving Repr, DecidableEq

/-- One committed mutation: insert a new record, update the record at a
live-table position with new column values, or delete the record at a
position. -/
inductive DbOp where
  | ins (vals : Cols)
  | upd (idx : Nat) (newVals : Cols)
  | del (idx : Nat)
  deriving Repr, DecidableEq

/-- One committed transaction carrying one mutation, at transaction id
`txid`.  Mirrors `_before_flush_handler` (assign a fresh version id iff
`is_modified`) followed by `_after_flush_handler` dispatching to
`_versioned_insert` / `_versioned_update` / `_versioned_delete`:

* insert: live row stored with server-default version `txid`; one archive
  entry, `deleted=false`, at the row's version;
* delete: live row removed; one archive entry, `deleted=true`, at
  `txid_current()` (not the row's last version);
* update: if no column changed after canonicalization, the version is not
  bumped and `_versioned_update` returns without archiving (the UPDATE of
  the assigned raw values still goes through); otherwise the version
  becomes `txid`, and if an identity column changed, a `deleted=true`
  entry of the pre-change state is archived first, with the current (new)
  version id, followed by the `deleted=false` post-change entry. -/
def runStep (proc : String → Int → Int) (vc allCols : List String)
    (txid : Int) (op : DbOp) (st : IState) : IState :=
  match op with
  | .ins vals =>
      { live := st.live ++ [(vals, txid)],
        archive := st.archive ++ [build_row_entry proc vc allCols vals txid false] }
  | .del idx =>
      match st.live[idx]? with
      | none => st
      | some (cols, _v) =>
          { live := st.live.eraseIdx idx,
            archive := st.archive ++ [build_row_entry proc vc allCols cols txid true] }
  | .upd idx newVals =>
      match st.live[idx]? with
      | none => st
      | some (old, v) =>
          if is_modified proc allCols old newVals then
            { live := st.live.set idx (newVals, txid),
              archive := st.archive ++
                ((if compositeKeyChanged vc old newVals then
                  [build_row_entry proc vc allCols old txid true] else []) ++
                [build_row_entry proc vc allCols newVals txid false]) }
          else
            { live := st.live.set idx (newVals, v), archive := st.archive }

/-- Run a sequence of committed transactions, each given as
`(txid, operation)`. -/
def runOps (proc : String → Int → Int) (vc allCols : List String) :
    List (Int × DbOp) → IState → IState
  | [], st => st
  | (t, op) :: rest, st =>
      runOps proc vc allCols rest (runStep proc vc allCols t op st)

/-! ## Schema registration (`SavageModelMixin.register` and the two
`_validate` methods) -/

/-- A column declaration: its name and the class of its SQL type. -/
structure ColSpec where
  name : String
  ty : String
  deriving Repr, DecidableEq

/-- A table schema as inspected at registration time: declared columns,
primary-key column names, and the column-name lists of the declared
unique constraints. -/
structure TableSchema where
  cols : List ColSpec
  pk : List String
  uniques : List (List String)
  deriving Repr, DecidableEq

/-- Does the schema declare column `c` (`getattr(cls, c)` is an
`InstrumentedAttribute`)? -/
def hasCol (s : TableSchema) (c : String) : Bool :=
  s.cols.any (fun x => x.name == c)

/-- The type class of a declared column. -/
def tyOf (s : TableSchema) (c : String) : Option String :=
  (s.cols.find? (fun x => x.name == c)).map (fun x => x.ty)

/-- `savage.utils.has_constraint` via engine reflection: is
`sorted(col_names)` equal to the sorted column list of some declared
unique constraint?  (Sorted-list equality is list permutation.  The
reflected primary-key constraint is chained in as its individual
column-name strings, which a *list* of names never equals, so that part
of the chain contributes no match.) -/
def has_constraint (s : TableSchema) (colNames : List String) : Bool :=
  s.uniques.any (fun u => u.isPerm colNames)

/-- `SavageModelMixin.register` followed by the two `_validate` methods,
with each `LogTableCreationError` as an `Except.error`.  The checks run
in source order: empty `version_columns`; the user-table checks (columns
exist; the identity columns are exactly the primary key or carry a
unique constraint); the log-table checks (per identity column: exists and
its type class matches the user table's; a `user_id` column exists; the
identity columns plus `version_id` carry a unique constraint). -/
def register (live archive : TableSchema) (versionCols : List String) :
    Except String Unit :=
  if versionCols.isEmpty then
    .error "Need to specify version cols in cls.version_columns"
  else if !(versionCols.all (hasCol live)) then
    .error "All version columns must be <InstrumentedAttribute>"
  else if !(live.pk.isPerm versionCols || has_constraint live versionCols) then
    .error "There is no unique constraint on the version columns"
  else if !(versionCols.all (fun c => hasCol archive c)) then
    .error "Log table needs column"
  else if !(versionCols.all (fun c => tyOf archive c == tyOf live c)) then
    .error "Type of column must match in log and user table"
  else if !(hasCol archive "user_id") then
    .error "Log table needs user_id column"
  else if !(has_constraint archive (versionCols ++ ["version_id"])) then
    .error "There is no unique constraint on the version columns of the log table"
  else .ok ()

/-! ## Helper definitions for the proofs -/

/-- Number of rows `_format_response` emits after the first row of a
result set: row `r` following row `p` is emitted iff its identity, its
projected snapshot or its deleted flag differs from `p`'s.  (Whenever a
row is skipped, the last emitted record agrees with that row on all
three, so comparing against the previous row is equivalent to comparing
against the last emitted record; proved in `format_response_aux_length_eq`.) -/
def emitCount (vc fields : List String) : ArchiveEntry → List ArchiveEntry → Nat
  | _, [] => 0
  | p, r :: rs =>
      (if entryIdOf vc r = entryIdOf vc p ∧ prunedData fields r = prunedData fields p ∧
          r.deleted = p.deleted
        then 0 else 1) + emitCount vc fields r rs

/-- Invariant of the archive log with respect to a bound `b` on future
transaction ids: every entry's version is below `b`, and for every fixed
identity key the versions of that identity's entries strictly increase in
append order. -/
def archInv (b : Int) (log : List LogEntry) : Prop :=
  (∀ e ∈ log, e.version_id < b) ∧
  ∀ ident : List (String × Int),
    ((log.filter (fun e => e.identity == ident)).map (fun e => e.version_id)).Chain'
      (fun x y => x < y)

/-- Concrete archive fixture: one non-deleted entry written at time 10. -/
def entry1 : ArchiveEntry :=
  { identity := [("product_id", 1)], version_id := 1, updated_at := 10,
    deleted := false, data := [("product_id", 1), ("col1", 7)] }

/-- Concrete registered-table fixture around `entry1`. -/
def qtbl : QueryTable :=
  { version_columns := ["product_id"], user_columns := ["product_id", "col1"],
    archive := [entry1], live := [] }

/-- The output record `get` produces for `entry1` under the default field
projection of `qtbl`. -/
def outRec1 : OutRec :=
  { entry := entry1, out_data := [("product_id", some 1), ("col1", some 7)] }

/-! ## Library lemmas about the sorting model -/

theorem mem_insertLe {α : Type} (le : α → α → Bool) (a x : α) (l : List α) :
    x ∈ insertLe le a l ↔ x = a ∨ x ∈ l := by
  induction l with
  | nil => simp [insertLe]
  | cons b bs ih =>
      simp only [insertLe]
      split
      · simp [List.mem_cons]
      · simp only [List.mem_cons, ih]
        tauto

theorem mem_sortLe {α : Type} (le : α → α → Bool) (x : α) (l : List α) :
    x ∈ sortLe le l ↔ x ∈ l := by
  induction l with
  | nil => simp [sortLe]
  | cons a as ih => simp [sortLe, mem_insertLe, ih]

theorem pairwise_insertLe {α : Type} (le : α → α → Bool)
    (htot : ∀ a b, (le a b || le b a) = true)
    (htrans : ∀ a b c, le a b = true → le b c = true → le a c = true)
    (a : α) (l : List α) (hl : l.Pairwise (fun x y => le x y = true)) :
    (insertLe le a l).Pairwise (fun x y => le x y = true) := by
  induction l with
  | nil => simp [insertLe]
  | cons b bs ih =>
      rw [List.pairwise_cons] at hl
      simp only [insertLe]
      split
      · rename_i hab
        refine List.Pairwise.cons ?_ (List.Pairwise.cons hl.1 hl.2)
        intro y hy
        rcases List.mem_cons.mp hy with h | h
        · exact h ▸ hab
        · exact htrans a b y hab (hl.1 y h)
      · rename_i hab
        have hba : le b a = true := by
          have := htot a b
          rcases Bool.or_eq_true_iff.mp this with h | h
          · exact absurd h hab
          · exact h
        refine List.Pairwise.cons ?_ (ih hl.2)
        intro y hy
        rcases (mem_insertLe le a y bs).mp hy with h | h
        · exact h ▸ hba
        · exact hl.1 y h

theorem pairwise_sortLe {α : Type} (le : α → α → Bool)
    (htot : ∀ a b, (le a b || le b a) = true)
    (htrans : ∀ a b c, le a b = true → le b c = true → le a c = true)
    (l : List α) :
    (sortLe le l).Pairwise (fun x y => le x y = true) := by
  induction l with
  | nil => simp [sortLe]
  | cons a as ih => exact pairwise_insertLe le htot htrans a (sortLe le as) ih

theorem lexLe_total : ∀ a b : List Int, (lexLe a b || lexLe b a) = true := by
  intro a
  induction a with
  | nil => intro b; simp [lexLe]
  | cons x as ih =>
      intro b
      cases b with
      | nil => simp [lexLe]
      | cons y bs =>
          simp only [lexLe]
          rcases lt_trichotomy x y with h | h | h
          · simp [h]
          · subst h
            simp only [lt_irrefl, if_false]
            exact ih bs
          · simp [h, not_lt_of_gt h]

theorem lexLe_trans : ∀ a b c : List Int,
    lexLe a b = true → lexLe b c = true → lexLe a c = true := by
  intro a
  induction a with
  | nil => intro b c _ _; simp [lexLe]
  | cons x as ih =>
      intro b c hab hbc
      cases b with
      | nil => simp [lexLe] at hab
      | cons y bs =>
          cases c with
          | nil => simp [lexLe] at hbc
          | cons z cs =>
              simp only [lexLe] at hab hbc ⊢
              by_cases hxy : x < y
              · simp only [hxy, if_true] at hab
                by_cases hyz : y < z
                · simp [lt_trans hxy hyz]
                · by_cases hzy : z < y
                  · simp [hyz, hzy] at hbc
                  · have : y = z := le_antisymm (not_lt.mp hzy) (not_lt.mp hyz)
                    simp [this ▸ hxy]
              · by_cases hyx : y < x
                · simp [hxy, hyx] at hab
                · have hxy' : x = y := le_antisymm (not_lt.mp hyx) (not_lt.mp hxy)
                  subst hxy'
                  simp only [hxy, lt_irrefl, if_false] at hab ⊢
                  by_cases hyz : x < z
                  · simp [hyz]
                  · by_cases hzy : z < x
                    · simp [hyz, hzy] at hbc
                    · simp only [hyz, hzy, if_false] at hbc ⊢
                      exact ih bs cs hab hbc

theorem entryLe_total (vc : List String) (a b : ArchiveEntry) :
    (entryLe vc a b || entryLe vc b a) = true :=
  lexLe_total (orderKey vc a) (orderKey vc b)

theorem entryLe_trans (vc : List String) (a b c : ArchiveEntry)
    (h1 : entryLe vc a b = true) (h2 : entryLe vc b c = true) :
    entryLe vc a c = true :=
  lexLe_trans (orderKey vc a) (orderKey vc b) (orderKey vc c) h1 h2

/-- Every result set produced by `sortRows` is ordered by the identity
columns ascending, then `version_id` ascending. -/
theorem sortRows_pairwise (vc : List String) (rows : List ArchiveEntry) :
    (sortRows vc rows).Pairwise (fun a b => entryLe vc a b = true) :=
  pairwise_sortLe (entryLe vc) (entryLe_total vc) (entryLe_trans vc) rows

theorem mem_sortRows (vc : List String) (x : ArchiveEntry) (rows : List ArchiveEntry) :
    x ∈ sortRows vc rows ↔ x ∈ rows :=
  mem_sortLe (entryLe vc) x rows

/-! ## Claim theorems -/

/-- C1: the claim states that in point-in-time mode no entry with
`updated_at > t1` is ever returned, for every value of `include_deleted`.
The code violates this when `include_deleted` is false: the Python
argument `[updated_at <= t] + [] if include_deleted else [deleted.is_(False)]`
drops the `updated_at <= t` condition by operator precedence.  At the
failing input — a single non-deleted archive entry with `updated_at = 10`
queried at `t1 = 5` with `include_deleted = false` — the query returns
that entry even though its `updated_at` exceeds `t1` (the claim, and the
docstring of `get`, demand an empty result). -/
theorem C1_time_slice_returns_entry_after_t1 :
    get_historical_time_slice qtbl [] 5 false 100 0 = [entry1] ∧
      ¬ (entry1.updated_at ≤ (5 : Int)) := by
  constructor
  · decide
  · decide

/-- C2: the claim states that in range mode every returned row has
`updated_at` in `[t1, t2)`, for every value of `include_deleted`.  The
code drops both time bounds when `include_deleted` is false (same Python
precedence slip as in C1).  At the failing input — a single non-deleted
entry with `updated_at = 10` queried over the window `[0, 5)` with
`include_deleted = false` — the entry is returned although its
`updated_at` lies outside the window. -/
theorem C2_range_returns_entry_outside_window :
    get_historical_changes qtbl [] 0 5 false 100 0 = [entry1] ∧
      ¬ (entry1.updated_at < (5 : Int)) := by
  constructor
  · decide
  · decide

/-- C10: the hard-delete operation with `conds` equal to `None` or the
empty list translates the empty condition list into a universally true
where-clause and deletes every row of both the archive table and the
live table. -/
theorem C10_delete_empty_conds_deletes_all (tbl : QueryTable) :
    delete_op tbl none = .ok { tbl with archive := [], live := [] } ∧
    delete_op tbl (some []) = .ok { tbl with archive := [], live := [] } := by
  constructor <;>
    simp [delete_op, get_conditions_list, condsHold, condsHoldLive]

/-- C8, counterexample: the claim says `get` raises a caller-input error
whenever a supplied identity condition does not name exactly the full
identity-column set.  In cursor mode the conditions are never validated:
with the malformed condition `{bogus: 5}` (not an identity column) the
call succeeds and returns the archive entry. -/
theorem C8_cursor_mode_skips_validation :
    get qtbl (some 0) none none none [[("bogus", 5)]] true 1 100 = .ok [outRec1] ∧
      validCond qtbl.version_columns [("bogus", 5)] = false := by
  constructor
  · rfl
  · decide

/-- C5, counterexample: the claim says cursor mode returns the entries
with `version_id` greater than the cursor *among the identities matching
the supplied identity conditions*.  The code ignores the conditions in
cursor mode: with the (well-formed) condition `{product_id: 2}`, which
`entry1` does not satisfy, the call still returns `entry1`. -/
theorem C5_cursor_mode_ignores_conditions :
    get qtbl (some 0) none none none [[("product_id", 2)]] true 1 100 = .ok [outRec1] ∧
      condsHold [[("product_id", 2)]] entry1 = false := by
  constructor
  · rfl
  · decide

/-- C5, amended: for every call to `get` with a version cursor given, the
identity conditions (and the include-deleted flag) are ignored; the rows
selected are exactly the archive entries with `version_id` strictly
greater than the cursor — with no deletion filtering — ordered by identity
columns then `version_id` ascending. -/
theorem C5_cursor_mode_amended (tbl : QueryTable) (cursor : Int) :
    (∀ fields conds include_deleted page page_size,
        get tbl (some cursor) none none fields conds include_deleted page page_size =
          get tbl (some cursor) none none fields [] true page page_size) ∧
    (∀ e, e ∈ get_after_version tbl cursor ↔ e ∈ tbl.archive ∧ cursor < e.version_id) ∧
    (get_after_version tbl cursor).Pairwise
      (fun a b => entryLe tbl.version_columns a b = true) := by
  refine ⟨?_, ?_, ?_⟩
  · intro fields conds include_deleted page page_size
    unfold get
    cases h : get_limit_and_offset page page_size with
    | error e => rfl
    | ok p => rfl
  · intro e
    simp [get_after_version, mem_sortRows, List.mem_filter]
  · exact sortRows_pairwise tbl.version_columns _

/-- C3: a committed update that changes an identity-key column (after
canonicalization) appends exactly two archive entries: first a
`deleted=true` entry with the pre-change identity-key values and
pre-change column state, then a `deleted=false` entry with the
post-change state, both carrying the same new version identifier `txid`
(the transaction's `txid_current()`, which is also the value assigned to
the live row's `version_id` in this transaction — not the record's
previous version). -/
theorem C3_identity_change_archives_two (proc : String → Int → Int)
    (vc allCols : List String) (st : IState) (idx : Nat)
    (old : Cols) (v : Int) (newVals : Cols) (txid : Int)
    (hget : st.live[idx]? = some (old, v))
    (c : String) (hcv : c ∈ vc) (hca : c ∈ allCols)
    (hchange : proc c (colOf newVals c) ≠ proc c (colOf old c)) :
    (runStep proc vc allCols txid (.upd idx newVals) st).archive =
      st.archive ++
        [build_row_entry proc vc allCols old txid true,
         build_row_entry proc vc allCols newVals txid false] := by
  have hraw : colOf newVals c ≠ colOf old c := fun h => hchange (by rw [h])
  have hmod : is_modified proc allCols old newVals = true := by
    simp only [is_modified, List.any_eq_true]
    exact ⟨c, hca, by simp [hraw, hchange]⟩
  have hcomp : compositeKeyChanged vc old newVals = true := by
    simp only [compositeKeyChanged, List.any_eq_true]
    exact ⟨c, hcv, by simp [hraw]⟩
  simp [runStep, hget, hmod, hcomp]

/-- Witness for C3 at a concrete input: `product_id` changes from 1 to 2
in transaction 5; the log receives the deleted pre-change entry and the
post-change entry, both at version 5. -/
theorem C3_identity_change_archives_two_witness :
    (runStep (fun _ x => x) ["product_id"] ["product_id", "col1"] 5
        (.upd 0 [("product_id", 2), ("col1", 7)])
        ⟨[([("product_id", 1), ("col1", 7)], 1)], []⟩).archive =
      [build_row_entry (fun _ x => x) ["product_id"] ["product_id", "col1"]
          [("product_id", 1), ("col1", 7)] 5 true,
       build_row_entry (fun _ x => x) ["product_id"] ["product_id", "col1"]
          [("product_id", 2), ("col1", 7)] 5 false] := by
  simpa using
    C3_identity_change_archives_two (fun _ x => x) ["product_id"] ["product_id", "col1"]
      ⟨[([("product_id", 1), ("col1", 7)], 1)], []⟩ 0
      [("product_id", 1), ("col1", 7)] 1 [("product_id", 2), ("col1", 7)] 5 rfl
      "product_id" (by decide) (by decide) (by decide)

/-- C6: an update whose column values all canonicalize (through the
dialect's bind processing) to their last committed values produces zero
new archive entries and leaves the record's `version_id` unchanged; the
interceptor touches nothing else — the only state change is the ordinary
UPDATE of the assigned raw column values. -/
theorem C6_noop_update_no_churn (proc : String → Int → Int)
    (vc allCols : List String) (st : IState) (idx : Nat)
    (old : Cols) (v : Int) (newVals : Cols) (txid : Int)
    (hget : st.live[idx]? = some (old, v))
    (hnoop : ∀ c ∈ allCols, proc c (colOf newVals c) = proc c (colOf old c)) :
    runStep proc vc allCols txid (.upd idx newVals) st =
      { live := st.live.set idx (newVals, v), archive := st.archive } := by
  have hmod : is_modified proc allCols old newVals = false := by
    simp only [is_modified, List.any_eq_false]
    intro c hc
    simp [hnoop c hc]
  simp [runStep, hget, hmod]

/-- Witness for C6 at a concrete input: rewriting `col1` with the value
it already has changes nothing in the archive and keeps version 1. -/
theorem C6_noop_update_no_churn_witness :
    runStep (fun _ x => x) ["product_id"] ["product_id", "col1"] 5
        (.upd 0 [("product_id", 1), ("col1", 7)])
        ⟨[([("product_id", 1), ("col1", 7)], 1)], []⟩ =
      { live := [([("product_id", 1), ("col1", 7)], 1)], archive := [] } := by
  simpa using
    C6_noop_update_no_churn (fun _ x => x) ["product_id"] ["product_id", "col1"]
      ⟨[([("product_id", 1), ("col1", 7)], 1)], []⟩ 0
      [("product_id", 1), ("col1", 7)] 1 [("product_id", 1), ("col1", 7)] 5 rfl
      (by decide)

/-- C9: registration succeeds exactly when none of the configuration
errors applies: the identity-column list is non-empty; every identity
column exists on the live table; the identity columns are exactly the
live table's primary key or carry a unique constraint there; every
identity column exists on the archive table with the same declared type
class; the archive table has a `user_id` column; and the identity columns
plus `version_id` carry a unique constraint on the archive table.  All
failures are raised synchronously by `register`, before any write. -/
theorem C9_register_validation_iff (live archive : TableSchema)
    (versionCols : List String) :
    register live archive versionCols = .ok () ↔
      (versionCols ≠ [] ∧
       (∀ c ∈ versionCols, hasCol live c = true) ∧
       (live.pk.isPerm versionCols = true ∨ has_constraint live versionCols = true) ∧
       (∀ c ∈ versionCols, hasCol archive c = true) ∧
       (∀ c ∈ versionCols, tyOf archive c = tyOf live c) ∧
       hasCol archive "user_id" = true ∧
       has_constraint archive (versionCols ++ ["version_id"]) = true) := by
  unfold register
  split_ifs with h1 h2 h3 h4 h5 h6 h7 <;>
    simp_all [List.isEmpty_iff, List.all_eq_true, Bool.or_eq_true_iff]
  by_cases hpk : live.pk.isPerm versionCols = true
  · exact Or.inl hpk
  · exact Or.inr (h3 (Bool.not_eq_true _ ▸ hpk))

theorem format_response_aux_length_le (vc fields : List String) :
    ∀ (rows : List ArchiveEntry) (oldId : Option (List (String × Int)))
      (acc : List OutRec),
      (format_response_aux vc fields rows oldId acc).length ≤ acc.length + rows.length := by
  intro rows
  induction rows with
  | nil => intro oldId acc; simp [format_response_aux]
  | cons r rs ih =>
      intro oldId acc
      cases acc with
      | nil =>
          simp only [format_response_aux]
          split
          · have h := ih (some (entryIdOf vc r)) [⟨r, prunedData fields r⟩]
            simp only [List.length_cons, List.length_nil] at h ⊢
            omega
          · have h := ih (some (entryIdOf vc r)) [⟨r, prunedData fields r⟩]
            simp only [List.length_cons, List.length_nil] at h ⊢
            omega
      | cons last rest =>
          simp only [format_response_aux]
          split
          · have h := ih (some (entryIdOf vc r)) (⟨r, prunedData fields r⟩ :: last :: rest)
            simp only [List.length_cons] at h ⊢
            omega
          · split
            · have h := ih (some (entryIdOf vc r)) (last :: rest)
              simp only [List.length_cons] at h ⊢
              omega
            · have h := ih (some (entryIdOf vc r)) (⟨r, prunedData fields r⟩ :: last :: rest)
              simp only [List.length_cons] at h ⊢
              omega

theorem format_response_length_le (vc fields : List String)
    (rows : List ArchiveEntry) :
    (format_response vc fields rows).length ≤ rows.length := by
  simpa [format_response] using format_response_aux_length_le vc fields rows none []

theorem paginate_length_le (limit offset : Nat) (rows : List ArchiveEntry) :
    (paginate limit offset rows).length ≤ limit := by
  simp only [paginate, List.length_take]
  exact Nat.min_le_left _ _

/-- C8, amended: `get` raises a caller-input error iff `page < 1` or no
version cursor is given and some supplied identity condition fails the
exact-identity-column check (wrong, extra or missing columns; in cursor
mode the conditions are not validated); and every successful call returns
at most `page_size` rows — the limit `page_size` at offset
`(page − 1) × page_size` is applied in each mode after its filtering and
ordering, before the projection/dedup post-processing. -/
theorem C8_get_error_iff_amended (tbl : QueryTable) (version_id : Option Int)
    (t1 t2 : Option Int) (fields : Option (List String)) (conds : List Cond)
    (include_deleted : Bool) (page : Int) (page_size : Nat) :
    ((get tbl version_id t1 t2 fields conds include_deleted page page_size).isOk = false ↔
      (page < 1 ∨ (version_id = none ∧
        conds.all (validCond tbl.version_columns) = false))) ∧
    (∀ out,
      get tbl version_id t1 t2 fields conds include_deleted page page_size = .ok out →
        out.length ≤ page_size) := by
  unfold get get_limit_and_offset
  by_cases hp : page < 1
  · simp [hp, Except.isOk, Except.toBool]
  · simp only [hp, if_false]
    cases version_id with
    | some cursor =>
        refine ⟨by simp [Except.isOk, Except.toBool, hp], ?_⟩
        intro out hout
        cases hout
        exact le_trans (format_response_length_le _ _ _) (paginate_length_le _ _ _)
    | none =>
        have hbound : ∀ conds2 t u,
            (format_response tbl.version_columns
              (fields.getD (tbl.user_columns.filter (fun n => n ≠ "version_id")))
              (get_historical_changes tbl conds2 t u include_deleted page_size
                ((page - 1) * page_size).toNat)).length ≤ page_size :=
          fun conds2 t u =>
            le_trans (format_response_length_le _ _ _) (paginate_length_le _ _ _)
        cases t1 with
        | none =>
            cases t2 with
            | none =>
                unfold get_conditions_list
                by_cases hall : conds.all (validCond tbl.version_columns) = true
                · refine ⟨by simp [Except.isOk, Except.toBool, hp, hall], ?_⟩
                  intro out hout
                  simp only [hall, if_true] at hout
                  cases hout
                  exact le_trans (format_response_length_le _ _ _)
                    (paginate_length_le _ _ _)
                · refine ⟨by simp [Except.isOk, Except.toBool, hp, hall,
                    Bool.not_eq_true _ ▸ hall], ?_⟩
                  intro out hout
                  simp [hall] at hout
            | some u =>
                unfold get_conditions_list
                by_cases hall : conds.all (validCond tbl.version_columns) = true
                · refine ⟨by simp [Except.isOk, Except.toBool, hp, hall], ?_⟩
                  intro out hout
                  simp only [hall, if_true] at hout
                  cases hout
                  exact hbound conds _ u
                · refine ⟨by simp [Except.isOk, Except.toBool, hp, hall,
                    Bool.not_eq_true _ ▸ hall], ?_⟩
                  intro out hout
                  simp [hall] at hout
        | some t =>
            cases t2 with
            | none =>
                unfold get_conditions_list
                by_cases hall : conds.all (validCond tbl.version_columns) = true
                · refine ⟨by simp [Except.isOk, Except.toBool, hp, hall], ?_⟩
                  intro out hout
                  simp only [hall, if_true] at hout
                  cases hout
                  exact le_trans (format_response_length_le _ _ _)
                    (paginate_length_le _ _ _)
                · refine ⟨by simp [Except.isOk, Except.toBool, hp, hall,
                    Bool.not_eq_true _ ▸ hall], ?_⟩
                  intro out hout
                  simp [hall] at hout
            | some u =>
                unfold get_conditions_list
                by_cases hall : conds.all (validCond tbl.version_columns) = true
                · refine ⟨by simp [Except.isOk, Except.toBool, hp, hall], ?_⟩
                  intro out hout
                  simp only [hall, if_true] at hout
                  cases hout
                  exact hbound conds _ u
                · refine ⟨by simp [Except.isOk, Except.toBool, hp, hall,
                    Bool.not_eq_true _ ▸ hall], ?_⟩
                  intro out hout
                  simp [hall] at hout

/-- Witness for C8 at a concrete input: a valid first-page call in
point-in-time mode succeeds and returns at most 100 rows. -/
theorem C8_get_error_iff_amended_witness :
    (format_response qtbl.version_columns ["product_id", "col1"]
      (get_historical_time_slice qtbl [] 5 true 100 0)).length ≤ 100 :=
  (C8_get_error_iff_amended qtbl none (some 5) none none [] true 1 100).2
    (format_response qtbl.version_columns ["product_id", "col1"]
      (get_historical_time_slice qtbl [] 5 true 100 0)) rfl

/-- Length of the `_format_response` output, characterised against the
previous row: whenever the loop keeps a row without emitting, the last
emitted record agrees with that row on identity, projected data and
deleted flag, so the emit decision only depends on the previous row. -/
theorem format_response_aux_length_eq (vc fields : List String) :
    ∀ (rows : List ArchiveEntry) (p : ArchiveEntry) (h : OutRec) (acc : List OutRec),
      h.out_data = prunedData fields p → h.entry.deleted = p.deleted →
      (format_response_aux vc fields rows (some (entryIdOf vc p)) (h :: acc)).length
        = acc.length + 1 + emitCount vc fields p rows := by
  intro rows
  induction rows with
  | nil =>
      intro p h acc hd hdel
      simp [format_response_aux, emitCount]
  | cons r rs ih =>
      intro p h acc hd hdel
      simp only [format_response_aux, emitCount]
      by_cases hid : entryIdOf vc r = entryIdOf vc p
      · rw [if_neg (fun hne => hne (congrArg some hid))]
        by_cases hcond : prunedData fields r = h.out_data ∧ r.deleted = h.entry.deleted
        · rw [if_pos hcond]
          rw [ih r h acc hcond.1.symm hcond.2.symm]
          rw [if_pos ⟨hid, hcond.1.trans hd, hcond.2.trans hdel⟩]
          omega
        · rw [if_neg hcond]
          rw [ih r ⟨r, prunedData fields r⟩ (h :: acc) rfl rfl]
          rw [if_neg (fun hc => hcond ⟨hc.2.1.trans hd.symm, hc.2.2.trans hdel.symm⟩)]
          simp only [List.length_cons]
          omega
      · rw [if_pos (fun hse => hid (Option.some_injective _ hse))]
        rw [ih r ⟨r, prunedData fields r⟩ (h :: acc) rfl rfl]
        rw [if_neg (fun hc => hid hc.1)]
        simp only [List.length_cons]
        omega

/-- The output of `_format_response` on a non-empty ordered result set has
one row for the first input row plus one per emitting subsequent row. -/
theorem format_response_length_cons (vc fields : List String) (r : ArchiveEntry)
    (rs : List ArchiveEntry) :
    (format_response vc fields (r :: rs)).length = 1 + emitCount vc fields r rs := by
  unfold format_response format_response_aux
  rw [if_pos (by simp)]
  simpa using format_response_aux_length_eq vc fields rs r ⟨r, prunedData fields r⟩ [] rfl rfl

/-- Projection is monotone under field-list inclusion: rows whose
snapshots agree on the larger field list agree on the smaller one. -/
theorem prunedData_mono {F F' : List String} (hsub : ∀ x ∈ F', x ∈ F)
    {a b : ArchiveEntry} (h : prunedData F a = prunedData F b) :
    prunedData F' a = prunedData F' b := by
  have h1 : ∀ k ∈ F, a.data.lookup k = b.data.lookup k := by
    intro k hk
    have h2 := (List.map_eq_map_iff.mp h) k hk
    exact congrArg Prod.snd h2
  apply List.map_eq_map_iff.mpr
  intro k hk
  rw [h1 k (hsub k hk)]

theorem emitCount_mono (vc : List String) {F F' : List String}
    (hsub : ∀ x ∈ F', x ∈ F) :
    ∀ (rows : List ArchiveEntry) (p : ArchiveEntry),
      emitCount vc F' p rows ≤ emitCount vc F p rows := by
  intro rows
  induction rows with
  | nil => intro p; simp [emitCount]
  | cons r rs ih =>
      intro p
      simp only [emitCount]
      have hstep :
          (if entryIdOf vc r = entryIdOf vc p ∧ prunedData F' r = prunedData F' p ∧
              r.deleted = p.deleted then 0 else 1)
            ≤ (if entryIdOf vc r = entryIdOf vc p ∧ prunedData F r = prunedData F p ∧
              r.deleted = p.deleted then (0 : Nat) else 1) := by
        by_cases hF : entryIdOf vc r = entryIdOf vc p ∧ prunedData F r = prunedData F p ∧
            r.deleted = p.deleted
        · rw [if_pos hF, if_pos ⟨hF.1, prunedData_mono hsub hF.2.1, hF.2.2⟩]
        · rw [if_neg hF]
          split <;> omega
      have hrec := ih r
      omega

/-- C7: for every archive row sequence and every pair of field lists
`F' ⊆ F`, applying the projection-plus-dedup post-processing of `get`
with `F'` yields at most as many output rows as applying it with `F` —
projection only merges rows, never splits them. -/
theorem C7_projection_only_merges (vc F F' : List String)
    (rows : List ArchiveEntry) (hsub : ∀ x ∈ F', x ∈ F) :
    (format_response vc F' rows).length ≤ (format_response vc F rows).length := by
  cases rows with
  | nil => simp [format_response, format_response_aux]
  | cons r rs =>
      rw [format_response_length_cons, format_response_length_cons]
      have := emitCount_mono vc hsub rs r
      omega

/-- Witness for C7 at a concrete input: projecting `entry1` onto
`["col1"] ⊆ ["product_id", "col1"]`. -/
theorem C7_projection_only_merges_witness :
    (format_response ["product_id"] ["col1"] [entry1]).length ≤
      (format_response ["product_id"] ["product_id", "col1"] [entry1]).length :=
  C7_projection_only_merges ["product_id"] ["product_id", "col1"] ["col1"] [entry1]
    (by decide)

theorem archInv_mono {b b' : Int} (hbb : b ≤ b') {log : List LogEntry}
    (h : archInv b log) : archInv b' log :=
  ⟨fun e he => lt_of_lt_of_le (h.1 e he) hbb, h.2⟩

theorem chain'_of_length_le_one {α : Type} {R : α → α → Prop} :
    ∀ {l : List α}, l.length ≤ 1 → l.Chain' R
  | [], _ => List.chain'_nil
  | [a], _ => List.chain'_singleton a
  | _ :: _ :: _, h => absurd h (by simp)

/-- Appending entries that all carry the current transaction id — with at
most one appended entry per identity — preserves the archive invariant
and bumps the bound past the transaction id. -/
theorem archInv_append {b t : Int} {log news : List LogEntry}
    (hinv : archInv b log) (hbt : b ≤ t)
    (hver : ∀ e ∈ news, e.version_id = t)
    (hone : ∀ ident : List (String × Int),
      (news.filter (fun e => e.identity == ident)).length ≤ 1) :
    archInv (t + 1) (log ++ news) := by
  constructor
  · intro e he
    rcases List.mem_append.mp he with h | h
    · have := hinv.1 e h
      omega
    · rw [hver e h]
      omega
  · intro ident
    rw [List.filter_append, List.map_append, List.chain'_append]
    refine ⟨hinv.2 ident, ?_, ?_⟩
    · apply chain'_of_length_le_one
      rw [List.length_map]
      exact hone ident
    · intro x hx y hy
      have hxmem := List.mem_of_mem_getLast? hx
      have hymem := List.mem_of_mem_head? hy
      obtain ⟨ex, hex, hexv⟩ := List.mem_map.mp hxmem
      obtain ⟨ey, hey, heyv⟩ := List.mem_map.mp hymem
      have hxlt : x < b := hexv ▸ hinv.1 ex (List.mem_of_mem_filter hex)
      have hyeq : y = t := heyv ▸ hver ey (List.mem_of_mem_filter hey)
      omega

/-- The two entries an identity-changing update appends have different
identity keys. -/
theorem build_row_entry_identity_ne (proc : String → Int → Int)
    (vc allCols : List String) (old new : Cols) (t1 t2 : Int) (d1 d2 : Bool)
    (h : compositeKeyChanged vc old new = true) :
    (build_row_entry proc vc allCols old t1 d1).identity ≠
      (build_row_entry proc vc allCols new t2 d2).identity := by
  obtain ⟨c, hc, hne⟩ := List.any_eq_true.mp h
  intro heq
  simp only [build_row_entry] at heq
  have h2 := (List.map_eq_map_iff.mp heq) c hc
  rw [Prod.mk.injEq] at h2
  exact (bne_iff_ne.mp hne) h2.2.symm

theorem filter_pair_length_le_one {e1 e2 : LogEntry}
    (hne : e1.identity ≠ e2.identity) (ident : List (String × Int)) :
    ([e1, e2].filter (fun e => e.identity == ident)).length ≤ 1 := by
  by_cases h1 : e1.identity == ident
  · have h2 : (e2.identity == ident) = false := by
      rw [beq_eq_false_iff_ne]
      exact fun hc => hne ((beq_iff_eq.mp h1).trans hc.symm)
    simp [List.filter, h1, h2]
  · simp only [List.filter, h1]
    split <;> simp

theorem filter_singleton_length_le_one {e1 : LogEntry}
    (ident : List (String × Int)) :
    ([e1].filter (fun e => e.identity == ident)).length ≤ 1 := by
  simp only [List.filter]
  split <;> simp

/-- One committed transaction preserves the archive invariant, with the
bound advanced past the transaction id. -/
theorem runStep_archInv (proc : String → Int → Int) (vc allCols : List String)
    (t : Int) (op : DbOp) (st : IState) (b : Int)
    (hbt : b ≤ t) (hinv : archInv b st.archive) :
    archInv (t + 1) (runStep proc vc allCols t op st).archive := by
  cases op with
  | ins vals =>
      apply archInv_append hinv hbt
      · intro e he
        rw [List.mem_singleton.mp he]
        rfl
      · intro ident
        exact filter_singleton_length_le_one ident
  | del idx =>
      cases hl : st.live[idx]? with
      | none =>
          simp only [runStep, hl]
          exact archInv_mono (by omega) hinv
      | some p =>
          obtain ⟨cols, v⟩ := p
          simp only [runStep, hl]
          apply archInv_append hinv hbt
          · intro e he
            rw [List.mem_singleton.mp he]
            rfl
          · intro ident
            exact filter_singleton_length_le_one ident
  | upd idx newVals =>
      cases hl : st.live[idx]? with
      | none =>
          simp only [runStep, hl]
          exact archInv_mono (by omega) hinv
      | some p =>
          obtain ⟨old, v⟩ := p
          simp only [runStep, hl]
          by_cases hmod : is_modified proc allCols old newVals = true
          · rw [if_pos hmod]
            by_cases hcomp : compositeKeyChanged vc old newVals = true
            · rw [if_pos hcomp]
              rw [show
                [build_row_entry proc vc allCols old t true] ++
                  [build_row_entry proc vc allCols newVals t false] =
                  [build_row_entry proc vc allCols old t true,
                   build_row_entry proc vc allCols newVals t false] from rfl]
              apply archInv_append hinv hbt
              · intro e he
                rcases List.mem_cons.mp he with h | h
                · rw [h]
                  rfl
                · rw [List.mem_singleton.mp h]
                  rfl
              · intro ident
                exact filter_pair_length_le_one
                  (build_row_entry_identity_ne proc vc allCols old newVals t t
                    true false hcomp) ident
            · rw [if_neg hcomp]
              rw [show ([] : List LogEntry) ++
                  [build_row_entry proc vc allCols newVals t false] =
                  [build_row_entry proc vc allCols newVals t false] from rfl]
              apply archInv_append hinv hbt
              · intro e he
                rw [List.mem_singleton.mp he]
                rfl
              · intro ident
                exact filter_singleton_length_le_one ident
          · rw [if_neg hmod]
            exact archInv_mono (by omega) hinv

theorem runOps_archInv (proc : String → Int → Int) (vc allCols : List String) :
    ∀ (ops : List (Int × DbOp)) (st : IState) (b : Int),
      archInv b st.archive →
      (ops.map Prod.fst).Chain' (fun x y => x < y) →
      (∀ p ∈ ops.head?, b ≤ p.1) →
      ∃ b', archInv b' (runOps proc vc allCols ops st).archive := by
  intro ops
  induction ops with
  | nil =>
      intro st b hinv _ _
      exact ⟨b, hinv⟩
  | cons hd rest ih =>
      intro st b hinv hchain hhead
      obtain ⟨t, op⟩ := hd
      have hbt : b ≤ t := hhead (t, op) rfl
      have hstep := runStep_archInv proc vc allCols t op st b hbt hinv
      simp only [runOps]
      rw [List.map_cons] at hchain
      have hch2 := List.chain'_cons'.mp hchain
      refine ih (runStep proc vc allCols t op st) (t + 1) hstep hch2.2 ?_
      intro p hp
      have ht : t < p.1 := by
        apply hch2.1 p.1
        rw [List.head?_map]
        rw [Option.mem_def] at hp
        rw [hp]
        rfl
      omega

/-- C4: over every sequence of committed inserts, updates and deletes
performed in transactions with strictly increasing transaction ids, the
archive log keeps, for each fixed identity key, version_id values that
strictly increase in append order — in particular the pairs
(identity key, version_id) are pairwise distinct.  Delete markers and the
synthetic deleted entries of identity-key changes take the fresh
transaction id, so they obey the same order. -/
theorem C4_archive_version_invariant (proc : String → Int → Int)
    (vc allCols : List String) (ops : List (Int × DbOp))
    (hchain : (ops.map Prod.fst).Chain' (fun x y => x < y)) :
    ∀ ident : List (String × Int),
      ((((runOps proc vc allCols ops ⟨[], []⟩).archive.filter
          (fun e => e.identity == ident)).map (fun e => e.version_id)).Chain'
            (fun x y => x < y)) ∧
      ((((runOps proc vc allCols ops ⟨[], []⟩).archive.filter
          (fun e => e.identity == ident)).map (fun e => e.version_id)).Pairwise
            (fun x y => x ≠ y)) := by
  have hinit : archInv (match ops.head? with | some p => p.1 | none => 0)
      (IState.mk [] []).archive := by
    constructor
    · intro e he
      simp at he
    · intro ident
      simp [List.filter]
  obtain ⟨b', hfin⟩ := runOps_archInv proc vc allCols ops ⟨[], []⟩ _ hinit hchain
    (by
      intro p hp
      rw [Option.mem_def] at hp
      rw [hp])
  intro ident
  refine ⟨hfin.2 ident, ?_⟩
  have hpw := List.chain'_iff_pairwise.mp (hfin.2 ident)
  exact hpw.imp (fun h => ne_of_lt h)

/-- Witness for C4 at a concrete input: insert, then update (changing a
business column), then delete one record across transactions 1, 2, 3. -/
theorem C4_archive_version_invariant_witness :
    ((((runOps (fun _ x => x) ["product_id"] ["product_id", "col1"]
        [(1, .ins [("product_id", 1), ("col1", 7)]),
         (2, .upd 0 [("product_id", 1), ("col1", 8)]),
         (3, .del 0)] ⟨[], []⟩).archive.filter
          (fun e => e.identity == [("product_id", 1)])).map
            (fun e => e.version_id)).Chain' (fun x y => x < y)) ∧
    ((((runOps (fun _ x => x) ["product_id"] ["product_id", "col1"]
        [(1, .ins [("product_id", 1), ("col1", 7)]),
         (2, .upd 0 [("product_id", 1), ("col1", 8)]),
         (3, .del 0)] ⟨[], []⟩).archive.filter
          (fun e => e.identity == [("product_id", 1)])).map
            (fun e => e.version_id)).Pairwise (fun x y => x ≠ y)) :=
  C4_archive_version_invariant (fun _ x => x) ["product_id"] ["product_id", "col1"]
    [(1, .ins [("product_id", 1), ("col1", 7)]),
     (2, .upd 0 [("product_id", 1), ("col1", 8)]),
     (3, .del 0)]
    (by simp [List.chain'_cons, List.chain'_singleton]) [("product_id", 1)]

end Savage
